import Mathlib

/-!
# Verification of the Kalimati Market scraper (`kalimati_scraper.py`)

Shallow embedding of the pure core of the scraper:

* strings are modelled as `List Char` (`Str`); Python `str.strip()` becomes
  `pyStrip`, Python's `while '  ' in v: v = v.replace('  ', ' ')` loop becomes
  its fixpoint `squeezeSpaces` (the string with every run of spaces collapsed);
* an HTML `<table>` element is modelled as `Table`: its `id` attribute, whether
  it contains a `<th>` element, its visible text, and its rows as lists of raw
  cell texts;
* a Python `dict` with string keys is an association list built by `dictSet`,
  which mirrors `d[k] = v` (update in place if the key exists, else append);
* the regex search `re.search(r'\(([^)]+)\)$', clean_text)` is implemented
  directly as `findParenSplit` (leftmost start position whose suffix is a
  parenthesized, `)`-free, nonempty group ending the string; `clean_text` is
  stripped, so Python's `$`-before-final-newline subtlety cannot arise);
* the regex search `re.search(r'(\d+(?:\.\d+)?)', s)` becomes
  `findFirstNumber`; `\d` is modelled as the ASCII digits (the scraped cells
  contain ASCII digits), and Python `float` of the matched token is modelled
  exactly as a rational number `tokenToRat`;
* `UNIT_MAPPINGS` and the `header_mapping` dict keep their Python insertion
  (iteration) order;
* file and network I/O are outside the embedding: `scrape_kalimati_market`
  takes the parsed document (list of tables), `create_product_mapping` takes
  the mapping loaded from disk, and `run_main` reports the records that would
  be written (`none` when no output file is produced) together with the exit
  code.
-/

/-- Strings of the embedded program: lists of characters. -/
abbrev Str := List Char

/-- Shorthand to write embedded strings from Lean string literals. -/
def str (s : String) : Str := s.toList

/-- The whitespace characters stripped by Python's `str.strip()`
(ASCII fragment: the scraped text is handled correctly by this fragment). -/
def isPySpace (c : Char) : Bool :=
  c = ' ' || c = '\t' || c = '\n' || c = '\r' || c = Char.ofNat 11 || c = Char.ofNat 12

/-- Python `s.strip()`: drop whitespace from both ends. -/
def pyStrip (s : Str) : Str :=
  ((s.dropWhile isPySpace).reverse.dropWhile isPySpace).reverse

/-- Fixpoint of Python's `while '  ' in value: value = value.replace('  ', ' ')`:
every run of consecutive spaces is collapsed to a single space. -/
def squeezeSpaces : Str → Str
  | [] => []
  | [c] => [c]
  | a :: b :: rest =>
      if a = ' ' ∧ b = ' ' then squeezeSpaces (b :: rest)
      else a :: squeezeSpaces (b :: rest)

/-- Line 113-116 of the source: cell cleaning for header-covered cells:
`cell.text.strip().replace('\n', ' ').replace('\r', '')` followed by the
double-space collapsing loop. -/
def cleanCell (s : Str) : Str :=
  squeezeSpaces (((pyStrip s).map fun c => if c = '\n' then ' ' else c).filter fun c => c ≠ '\r')

/-- `UNIT_MAPPINGS` (lines 30-44), in Python dict insertion order. -/
def UNIT_MAPPINGS : List (Str × Str) :=
  [ (str "के.जी.", str "kg")
  , (str "के.जी", str "kg")
  , (str "केजी", str "kg")
  , (str "के जी", str "kg")
  , (str "किलो", str "kg")
  , (str "गोटा", str "pcs")
  , (str "पिस", str "pcs")
  , (str "दर्जन", str "dozen")
  , (str "दर्जन.", str "dozen")
  , (str "मुठा", str "mutha")
  , (str "बन्डल", str "bundle")
  , (str "बोरा", str "sack")
  , (str "क्रेट", str "crate") ]

/-- Python's substring test `needle in hay`: `needle` occurs contiguously in
`hay`. -/
def isSubstring (needle hay : Str) : Bool :=
  hay.tails.any fun t => needle.isPrefixOf t

/-- Lines 154-158: first entry of `UNIT_MAPPINGS` whose Nepali token occurs as
a substring of the unit phrase wins; default `"kg"`. -/
def unitLookup (phrase : Str) : Str :=
  match UNIT_MAPPINGS.find? (fun p => isSubstring p.1 phrase) with
  | some p => p.2
  | none => str "kg"

/-- Matches the tail of the regex `\(([^)]+)\)$` after the opening paren: the
remainder of the string must be a nonempty `)`-free group followed by the
closing paren that ends the string.  Returns the group's interior. -/
def checkInterior (l : Str) : Option Str :=
  if 2 ≤ l.length ∧ l.getLast? = some ')' ∧ l.dropLast.all (fun c => c ≠ ')') then
    some l.dropLast
  else none

/-- `re.search(r'\(([^)]+)\)$', s)` for a string with no trailing newline:
leftmost position where the pattern matches.  Returns the text before the
match and the group's interior. -/
def findParenSplit : Str → Option (Str × Str)
  | [] => none
  | c :: rest =>
      if c = '(' then
        match checkInterior rest with
        | some interior => some ([], interior)
        | none => (findParenSplit rest).map fun pi => (c :: pi.1, pi.2)
      else (findParenSplit rest).map fun pi => (c :: pi.1, pi.2)

/-- `extract_product_info` (lines 126-160): split `"name (unit)"` into the
product name, the Nepali unit phrase and the English unit. -/
def extract_product_info (item_text : Str) : Str × Str × Str :=
  let clean := pyStrip item_text
  match findParenSplit clean with
  | none => (clean, [], str "kg")
  | some pi =>
      let unitNepali := pyStrip pi.2
      (pyStrip pi.1, unitNepali, unitLookup unitNepali)

/-! ## Python dicts as association lists -/

/-- Python `d[k] = v` on a dict: if the key is present, update its value in
place (insertion position kept); otherwise append the new pair at the end. -/
def dictSet {α : Type} (d : List (Str × α)) (k : Str) (v : α) : List (Str × α) :=
  if d.any (fun p => p.1 = k) then d.map (fun p => if p.1 = k then (k, v) else p)
  else d ++ [(k, v)]

/-- Python key lookup `d[k]` / `k in d`: the value stored under `k`, if any. -/
def dictFind {α : Type} (d : List (Str × α)) (k : Str) : Option α :=
  (d.find? fun p => p.1 = k).map Prod.snd

/-! ## Table Locator & Extractor (`scrape_kalimati_market`, lines 46-124) -/

/-- A parsed HTML `<table>` element as the locator sees it: its `id`
attribute, whether it contains a `<th>` element (`t.find('th')`), its visible
text (`t.text`), and its `<tr>` rows, each a list of raw cell texts (the
`.text` of its `td`/`th` cells, in order; a `<tr>` with no cells is `[]`). -/
structure Table where
  idAttr : Option Str
  hasTh : Bool
  text : Str
  rows : List (List Str)

/-- ASCII fragment of Python `str.lower()` (the keyword search lowercases the
table text; Devanagari has no case). -/
def pyLower (s : Str) : Str := s.map Char.toLower

/-- The keyword set of line 83. -/
def priceKeywords : List Str :=
  [str "commodity", str "price", str "कृषि उपज", str "मूल्य"]

/-- Lines 71-86: find the table with id `commodityDailyPrice`; failing that,
the first table that has a `<th>` and whose lowercased text contains one of
the keywords. -/
def findTable (doc : List Table) : Option Table :=
  match doc.find? (fun t => t.idAttr = some (str "commodityDailyPrice")) with
  | some t => some t
  | none =>
      doc.find? fun t =>
        t.hasTh && priceKeywords.any (fun kw => isSubstring kw (pyLower t.text))

/-- The synthetic key `f"column_{i}"` of line 120. -/
def columnKey (i : Nat) : Str := str ("column_" ++ toString i)

/-- A raw extracted row: the Python dict built at lines 109-120. -/
abbrev RawRow := List (Str × Str)

/-- The sequence of `row_data[...] = ...` assignments of lines 110-120, as
(key, value) pairs in assignment order: a cell at index `i` covered by the
headers is stored under `headers[i]` after full cleaning (`cleanCell`); a
surplus cell is stored under `column_<i>` after `.strip()` only. -/
def rowPairs (headers : List Str) : Nat → List Str → List (Str × Str)
  | _, [] => []
  | i, c :: cs =>
      (if i < headers.length then (headers.getD i [], cleanCell c)
       else (columnKey i, pyStrip c)) :: rowPairs headers (i + 1) cs

/-- Lines 109-121: build the `row_data` dict of one data row. -/
def buildRow (headers : List Str) (cells : List Str) : RawRow :=
  (rowPairs headers 0 cells).foldl (fun d p => dictSet d p.1 p.2) []

/-- Lines 94-124: headers from the first row (cell text stripped), then one
`RawRow` per subsequent row that has at least one cell. -/
def extractRows (rows : List (List Str)) : List RawRow :=
  match rows with
  | [] => []
  | headerRow :: rest =>
      let headers := headerRow.map pyStrip
      (rest.filter fun cells => cells ≠ []).map fun cells => buildRow headers cells

/-- `scrape_kalimati_market` (lines 46-124), starting from the parsed
document (the network fetch and HTML parsing are external): locate the table
and extract its rows; no table means an empty result (line 90). -/
def scrape_kalimati_market (doc : List Table) : List RawRow :=
  match findTable doc with
  | none => []
  | some t => extractRows t.rows

/-! ## Product Mapping Store (`create_product_mapping`, lines 162-225)

The mapping file on disk is external: the embedded function takes the mapping
that the load step produced (the empty list when the file is absent or
unreadable).  Python's `set` has unspecified iteration order; `uniqueProducts`
models it as the deduplicated list of extracted names in first-occurrence
order — every property proved below is independent of that order. -/

/-- The item column header `'कृषि उपज'`. -/
def itemKey : Str := str "कृषि उपज"

/-- Lines 186-193: the unique product names (unit suffix removed via
`extract_product_info`) of the rows that have the item column. -/
def uniqueProducts (data : List RawRow) : List Str :=
  data.foldl
    (fun acc item =>
      match dictFind item itemKey with
      | some item_text =>
          let pn := (extract_product_info item_text).1
          if pn ∈ acc then acc else acc ++ [pn]
      | none => acc)
    []

/-- One step of the loop at lines 198-202: add the name with an empty
translation if absent, counting additions. -/
def mergeStep (mn : List (Str × Str) × Nat) (pn : Str) : List (Str × Str) × Nat :=
  if (dictFind mn.1 pn).isSome then mn else (mn.1 ++ [(pn, [])], mn.2 + 1)

/-- Lines 184-202: the merge loop, returning the updated mapping together
with `new_products_added`. -/
def mergeLoop (pm : List (Str × Str)) (data : List RawRow) : List (Str × Str) × Nat :=
  (uniqueProducts data).foldl mergeStep (pm, 0)

/-- `create_product_mapping` (lines 162-225) restricted to its pure effect on
the loaded mapping `pm`: the function RETURNS the updated mapping (line 225);
the counter `new_products_added` only decides whether the file is rewritten
(line 206). -/
def create_product_mapping (pm : List (Str × Str)) (data : List RawRow) : List (Str × Str) :=
  (mergeLoop pm data).1

/-- The internal counter `new_products_added` of the same run. -/
def new_products_added (pm : List (Str × Str)) (data : List RawRow) : Nat :=
  (mergeLoop pm data).2

/-! ## Record Transformer (`transform_data`, lines 227-288) -/

/-- A value stored in a transformed record: Python puts both strings and
floats in the output dict.  Python floats are modelled as exact rationals
(exact for every decimal the claims touch). -/
inductive Val where
  | s (v : Str)
  | num (q : ℚ)
deriving DecidableEq

/-- A transformed record: the Python dict built at lines 249-283. -/
abbrev Record := List (Str × Val)

/-- `header_mapping` (lines 241-246), in insertion order. -/
def header_mapping : List (Str × Str) :=
  [ (str "कृषि उपज", str "item")
  , (str "न्यूनतम", str "minimum")
  , (str "अधिकतम", str "maximum")
  , (str "औसत", str "average") ]

/-- The initial `transformed_item` dict literal (lines 249-258). -/
def baseRecord : Record :=
  [ (str "nepali_name", .s [])
  , (str "english_name", .s [])
  , (str "minimum", .num 0)
  , (str "maximum", .num 0)
  , (str "average", .num 0)
  , (str "unit_type", .s (str "kg"))
  , (str "unit_nepali", .s [])
  , (str "currency", .s (str "npr")) ]

/-- Value of an ASCII digit. -/
def digitVal (c : Char) : Nat := c.toNat - 48

/-- Numeric value of a digit string. -/
def digitsToNat (l : Str) : Nat := l.foldl (fun acc c => 10 * acc + digitVal c) 0

/-- Python `float` of the matched token `intPart[.fracPart]`, as an exact
rational: the decimal `intPart.fracPart` is
`(intPart * 10^k + fracPart) / 10^k` for `k` fractional digits. -/
def tokenToRat (intPart fracPart : Str) : ℚ :=
  mkRat (digitsToNat intPart * 10 ^ fracPart.length + digitsToNat fracPart)
    (10 ^ fracPart.length)

/-- Greedy match of `\d+(?:\.\d+)?` at the start of `l` (which begins with a
digit): the integer digits and the fractional digits (empty when the optional
group does not match). -/
def takeNumberToken (l : Str) : Str × Str :=
  let intPart := l.takeWhile Char.isDigit
  match l.dropWhile Char.isDigit with
  | '.' :: r =>
      let fracPart := r.takeWhile Char.isDigit
      if fracPart = [] then (intPart, []) else (intPart, fracPart)
  | _ => (intPart, [])

/-- `re.search(r'(\d+(?:\.\d+)?)', s)` (line 281): leftmost match, returned
as its exact rational value (`\d` modelled as the ASCII digits). -/
def findFirstNumber : Str → Option ℚ
  | [] => none
  | c :: rest =>
      if c.isDigit then
        let t := takeNumberToken (c :: rest)
        some (tokenToRat t.1 t.2)
      else findFirstNumber rest

/-- One step of the price loop (lines 276-283) for the header pair
`(nepali_key, english_key)`: skip the item column; otherwise parse the first
number of the comma-stripped cell text and store it, keeping the default on a
failed parse. -/
def priceStep (item : RawRow) (r : Record) (ks : Str × Str) : Record :=
  if ks.1 ≠ itemKey then
    match dictFind item ks.1 with
    | some price_text =>
        match findFirstNumber (price_text.filter fun c => c ≠ ',') with
        | some q => dictSet r ks.2 (.num q)
        | none => r
    | none => r
  else r

/-- The three assignments of lines 267-269, for the parser output `pnu =
(product_name, unit_nepali, unit_english)`. -/
def nameRecord (pnu : Str × Str × Str) : Record :=
  dictSet (dictSet (dictSet baseRecord (str "nepali_name") (.s pnu.1))
    (str "unit_type") (.s pnu.2.2)) (str "unit_nepali") (.s pnu.2.1)

/-- Lines 261-273: populate `nepali_name`, `unit_type`, `unit_nepali` from the
item column, and `english_name` when the mapping has a non-empty translation
(`if product_mapping and product_name in product_mapping and
product_mapping[product_name]`). -/
def nameFields (pm : List (Str × Str)) (item : RawRow) : Record :=
  match dictFind item itemKey with
  | none => baseRecord
  | some item_text =>
      if pm ≠ [] then
        match dictFind pm (extract_product_info item_text).1 with
        | some eng =>
            if eng ≠ [] then
              dictSet (nameRecord (extract_product_info item_text)) (str "english_name") (.s eng)
            else nameRecord (extract_product_info item_text)
        | none => nameRecord (extract_product_info item_text)
      else nameRecord (extract_product_info item_text)

/-- The body of the loop at lines 248-285 for one `RawRow`. -/
def transform_row (pm : List (Str × Str)) (item : RawRow) : Record :=
  header_mapping.foldl (priceStep item) (nameFields pm item)

/-- `transform_data` (lines 227-288). -/
def transform_data (data : List RawRow) (pm : List (Str × Str)) : List Record :=
  data.map (transform_row pm)

/-! ## `main` (lines 321-344)

File output is external: `run_main` returns the list of records that
`save_to_json` would serialize (`none` when the save step never runs — when
`raw_data` is empty, `main` only logs a warning) together with the process
exit code.  `pm0` is the mapping loaded from disk by
`create_product_mapping`.  The embedded pipeline raises no exceptions, so the
`except` branch (exit code 1) is unreachable here. -/

def run_main (pm0 : List (Str × Str)) (doc : List Table) : Option (List Record) × Nat :=
  let raw := scrape_kalimati_market doc
  if raw ≠ [] then
    let pm := create_product_mapping pm0 raw
    (some (transform_data raw pm), 0)
  else (none, 0)

/-! ## Specification-side definitions and concrete test documents -/

/-- The spec's description of cell normalization, taken literally: newlines
and carriage returns removed, then runs of multiple spaces collapsed to one,
then trimmed. -/
def normalizeAsClaimed (s : Str) : Str :=
  pyStrip (squeezeSpaces (s.filter fun c => c ≠ '\n' ∧ c ≠ '\r'))

/-- The spec's description of the trailing-parenthesis decomposition: `t`
splits as `pre ++ "(" ++ interior ++ ")"` where the final `)` ends the
string and the nonempty interior contains no `)` (the regex
`\(([^)]+)\)$`). -/
def ValidSplit (t pre interior : Str) : Prop :=
  t = pre ++ '(' :: (interior ++ [')']) ∧ interior ≠ [] ∧ ')' ∉ interior

/-- The eight output field names, in the insertion order of the
`transformed_item` dict literal. -/
def recordKeys : List Str :=
  [ str "nepali_name", str "english_name", str "minimum", str "maximum"
  , str "average", str "unit_type", str "unit_nepali", str "currency" ]

/-- Test document: the spec's end-to-end example table. -/
def docC1 : List Table :=
  [ { idAttr := some (str "commodityDailyPrice"), hasTh := true, text := []
    , rows := [ [str "कृषि उपज", str "न्यूनतम", str "अधिकतम", str "औसत"]
              , [str "आलु रातो (के.जी.)", str "40", str "45", str "42.5"] ] } ]

/-- Test document: the price table is present but has no data rows, so zero
rows are scraped. -/
def docHeaderOnly : List Table :=
  [ { idAttr := some (str "commodityDailyPrice"), hasTh := true, text := []
    , rows := [ [str "कृषि उपज", str "न्यूनतम", str "अधिकतम", str "औसत"] ] } ]

/-- Test document: a data row with two cells against one header; the surplus
cell's text contains a newline. -/
def docSurplus : List Table :=
  [ { idAttr := some (str "commodityDailyPrice"), hasTh := true, text := []
    , rows := [ [str "h"], [str "x", str "a\nb"] ] } ]

/-- Test document: one table, but it has no id, no `<th>`, and no keyword in
its text, so neither locator step selects it. -/
def docNoMatch : List Table :=
  [ { idAttr := none, hasTh := false, text := str "nothing relevant"
    , rows := [ [str "a"], [str "b"] ] } ]

/-- Test row: a scraped row whose item column holds a product with a unit
suffix. -/
def rowEx : RawRow := [(str "कृषि उपज", str "आलु रातो (के.जी.)")]

/-! ## Theorems -/

/-- C1: extraction of the two-row table with headers `["कृषि उपज", "न्यूनतम",
"अधिकतम", "औसत"]` and data row `["आलु रातो (के.जी.)", "40", "45", "42.5"]`,
followed by transformation, yields exactly one record, with `nepali_name`
`"आलु रातो"`, `unit_type` `"kg"`, `unit_nepali` `"के.जी."`, `minimum` `40`,
`maximum` `45`, `average` `42.5`, and `currency` `"npr"`. -/
theorem C1_end_to_end :
    (let raw := scrape_kalimati_market docC1
     transform_data raw (create_product_mapping [] raw)) =
    [ [ (str "nepali_name", .s (str "आलु रातो"))
      , (str "english_name", .s [])
      , (str "minimum", .num (mkRat 40 1))
      , (str "maximum", .num (mkRat 45 1))
      , (str "average", .num (mkRat 85 2))
      , (str "unit_type", .s (str "kg"))
      , (str "unit_nepali", .s (str "के.जी."))
      , (str "currency", .s (str "npr")) ] ] := by decide

/-- C3, counterexample: when zero rows are scraped (here: the price table has
only its header row), `main` skips the save step entirely — no output file is
written, in particular no empty JSON array — although the process does exit
successfully (exit code 0). -/
theorem C3_counterexample :
    (run_main [] docHeaderOnly).1 = none
    ∧ (run_main [] docHeaderOnly).1 ≠ some []
    ∧ (run_main [] docHeaderOnly).2 = 0 := by decide

/-- C3, amended: when zero rows were scraped, no output file is produced (the
save step is skipped) and the process exits successfully. -/
theorem C3_amended_no_output (pm0 : List (Str × Str)) (doc : List Table)
    (h : scrape_kalimati_market doc = []) : run_main pm0 doc = (none, 0) := by
  simp [run_main, h]

/-- Witness for `C3_amended_no_output` at the header-only document. -/
theorem C3_witness : run_main [] docHeaderOnly = (none, 0) :=
  C3_amended_no_output [] docHeaderOnly (by decide)

/-- C9: when no table carries the known id and the heuristic content search
(`<th>` present and a keyword in the lowercased text) matches no table
either, extraction returns the empty sequence. -/
theorem C9_no_table_empty (doc : List Table)
    (h1 : ∀ t ∈ doc, t.idAttr ≠ some (str "commodityDailyPrice"))
    (h2 : ∀ t ∈ doc, t.hasTh = false
      ∨ ∀ kw ∈ priceKeywords, isSubstring kw (pyLower t.text) = false) :
    scrape_kalimati_market doc = [] := by
  have e1 : doc.find? (fun t => t.idAttr = some (str "commodityDailyPrice")) = none :=
    List.find?_eq_none.mpr fun t ht => by simpa using h1 t ht
  have e2 : doc.find?
      (fun t => t.hasTh && priceKeywords.any fun kw => isSubstring kw (pyLower t.text)) = none := by
    refine List.find?_eq_none.mpr fun t ht => ?_
    rcases h2 t ht with h | h
    · simp [h]
    · simp only [Bool.and_eq_true, List.any_eq_true, not_and]
      rintro - ⟨kw, hkw, hsub⟩
      rw [h kw hkw] at hsub
      exact Bool.false_ne_true hsub
  simp [scrape_kalimati_market, findTable, e1, e2]

/-- Witness for `C9_no_table_empty` at a document whose only table matches
neither locator step, yet has rows. -/
theorem C9_witness : scrape_kalimati_market docNoMatch = [] :=
  C9_no_table_empty docNoMatch (by decide) (by decide)

/-- C6: if the unit phrase contains some known Nepali unit token as a
substring, the translator returns that token's mapped English unit (for a
contained token — the first one in `UNIT_MAPPINGS` order); if it contains no
known token, it returns `"kg"`. -/
theorem C6_unit_translator (phrase : Str) :
    ((∃ p ∈ UNIT_MAPPINGS, isSubstring p.1 phrase = true) →
      ∃ p ∈ UNIT_MAPPINGS, isSubstring p.1 phrase = true ∧ unitLookup phrase = p.2)
    ∧ ((∀ p ∈ UNIT_MAPPINGS, isSubstring p.1 phrase = false) →
      unitLookup phrase = str "kg") := by
  constructor
  · rintro ⟨p, hp, hsub⟩
    cases hfind : UNIT_MAPPINGS.find? (fun q => isSubstring q.1 phrase) with
    | none =>
        have := List.find?_eq_none.mp hfind p hp
        simp [hsub] at this
    | some q =>
        refine ⟨q, List.mem_of_find?_eq_some hfind, ?_, ?_⟩
        · simpa using List.find?_some hfind
        · simp [unitLookup, hfind]
  · intro hall
    have hnone : UNIT_MAPPINGS.find? (fun q => isSubstring q.1 phrase) = none :=
      List.find?_eq_none.mpr fun q hq => by simp [hall q hq]
    simp [unitLookup, hnone]

/-- Witness for `C6_unit_translator`: a phrase containing the token `"गोटा"`
translates to that token's unit, and a phrase containing no known token
translates to the default `"kg"`. -/
theorem C6_witness :
    (∃ p ∈ UNIT_MAPPINGS, isSubstring p.1 (str "प्रति गोटा") = true
      ∧ unitLookup (str "प्रति गोटा") = p.2)
    ∧ unitLookup (str "डोको") = str "kg" :=
  ⟨(C6_unit_translator (str "प्रति गोटा")).1 (by decide),
   (C6_unit_translator (str "डोको")).2 (by decide)⟩

/-- C2, counterexample: `create_product_mapping` returns the updated mapping
(here the one-entry dictionary for the newly seen product), not the count of
newly added entries (which is 1 internally on this input). -/
theorem C2_counterexample :
    create_product_mapping [] [rowEx] = [(str "आलु रातो", [])]
    ∧ new_products_added [] [rowEx] = 1 := by decide

/-- C4, counterexample: a surplus cell beyond the header count is stored only
`.strip()`-ed (line 120); its stored text `"a\nb"` still contains a newline,
so it is not whitespace-normalized as the claim states. -/
theorem C4_counterexample :
    scrape_kalimati_market docSurplus =
      [[(str "h", str "x"), (columnKey 1, str "a\nb")]]
    ∧ str "a\nb" ≠ normalizeAsClaimed (str "a\nb") := by decide

/-- Position `i` of the row assignments, for any starting index `k`. -/
theorem rowPairs_getElem (headers : List Str) (cells : List Str) :
    ∀ (k i : Nat), i < cells.length →
      (rowPairs headers k cells)[i]? =
        some (if k + i < headers.length then
                (headers.getD (k + i) [], cleanCell (cells.getD i []))
              else (columnKey (k + i), pyStrip (cells.getD i []))) := by
  induction cells with
  | nil => intro k i h; simp at h
  | cons c cs ih =>
      intro k i h
      cases i with
      | zero => simp [rowPairs]
      | succ i =>
          have h' : i < cs.length := by simpa using h
          have e : k + (i + 1) = (k + 1) + i := by omega
          simp only [rowPairs, List.getElem?_cons_succ, List.getD_cons_succ, e]
          exact ih (k + 1) i h'

/-- C4, amended: a cell at an index covered by the headers is stored under
`headers[i]` with its text cleaned (trimmed, newlines replaced by spaces,
carriage returns removed, runs of spaces collapsed — `cleanCell`); a surplus
cell beyond the header count is stored under `column_<i>` with its text only
trimmed. -/
theorem C4_amended_cell_storage (headers cells : List Str) (i : Nat)
    (h : i < cells.length) :
    (rowPairs headers 0 cells)[i]? =
      some (if i < headers.length then
              (headers.getD i [], cleanCell (cells.getD i []))
            else (columnKey i, pyStrip (cells.getD i []))) := by
  simpa using rowPairs_getElem headers cells 0 i h

/-- Witness for `C4_amended_cell_storage` at the surplus-cell example row. -/
theorem C4_witness :
    (rowPairs [str "h"] 0 [str "x", str "a\nb"])[1]? =
      some (columnKey 1, pyStrip (str "a\nb")) := by
  rw [C4_amended_cell_storage [str "h"] [str "x", str "a\nb"] 1 (by decide)]
  decide

/-- `dictSet` on a key already present does not change the key sequence. -/
theorem dictSet_keys {α : Type} (d : List (Str × α)) (k : Str) (v : α)
    (h : k ∈ d.map Prod.fst) : (dictSet d k v).map Prod.fst = d.map Prod.fst := by
  have hany : d.any (fun p => p.1 = k) = true := by
    simp only [List.any_eq_true]
    obtain ⟨p, hp, he⟩ := List.mem_map.mp h
    exact ⟨p, hp, by simp [he]⟩
  simp only [dictSet, hany, if_true]
  rw [List.map_map]
  refine List.map_congr_left fun p hp => ?_
  by_cases hk : p.1 = k
  · simp [Function.comp, hk]
  · simp [Function.comp, hk]

/-- Appending entries on the right never disturbs an existing lookup. -/
theorem dictFind_append_some {α : Type} {d : List (Str × α)} {k : Str} {v : α}
    (e : List (Str × α)) (h : dictFind d k = some v) : dictFind (d ++ e) k = some v := by
  unfold dictFind at h ⊢
  rw [List.find?_append]
  cases hf : d.find? (fun p => p.1 = k) with
  | none => rw [hf] at h; simp at h
  | some q => rw [hf] at h; simpa using h

/-- A lookup in `d ++ [(pn, [])]` is either a lookup in `d` or hits the new
empty-translation entry. -/
theorem dictFind_append_single {m : List (Str × Str)} {k pn : Str} {v : Str}
    (h : dictFind (m ++ [(pn, [])]) k = some v) : dictFind m k = some v ∨ v = [] := by
  unfold dictFind at h ⊢
  rw [List.find?_append] at h
  cases hm : m.find? (fun p => p.1 = k) with
  | some q => rw [hm] at h; exact .inl (by simpa using h)
  | none =>
      rw [hm] at h
      simp only [Option.none_or] at h
      by_cases hpk : pn = k
      · right
        simp [List.find?, hpk] at h
        exact h
      · simp [List.find?, hpk] at h

/-- The merge loop never disturbs an existing entry. -/
theorem mergeFold_preserves (l : List Str) :
    ∀ (m : List (Str × Str)) (n : Nat) (k : Str) (v : Str),
      dictFind m k = some v → dictFind ((l.foldl mergeStep (m, n)).1) k = some v := by
  induction l with
  | nil => intro m n k v h; exact h
  | cons pn l ih =>
      intro m n k v h
      simp only [List.foldl_cons]
      cases hp : dictFind m pn with
      | some w => simpa [mergeStep, hp] using ih m n k v h
      | none => simpa [mergeStep, hp] using ih _ _ k v (dictFind_append_some _ h)

/-- Every entry after the merge loop either existed before or is a new entry
with the empty translation. -/
theorem mergeFold_new (l : List Str) :
    ∀ (m : List (Str × Str)) (n : Nat) (k : Str) (v : Str),
      dictFind ((l.foldl mergeStep (m, n)).1) k = some v →
      dictFind m k = some v ∨ v = [] := by
  induction l with
  | nil => intro m n k v h; exact .inl h
  | cons pn l ih =>
      intro m n k v h
      simp only [List.foldl_cons] at h
      cases hp : dictFind m pn with
      | some w =>
          rw [show mergeStep (m, n) pn = (m, n) by simp [mergeStep, hp]] at h
          exact ih m n k v h
      | none =>
          rw [show mergeStep (m, n) pn = (m ++ [(pn, [])], n + 1) by
            simp [mergeStep, hp]] at h
          rcases ih _ _ k v h with h' | h'
          · exact dictFind_append_single h'
          · exact .inr h'

/-- Every name fed to the merge loop is present afterwards. -/
theorem mergeFold_mem (l : List Str) :
    ∀ (m : List (Str × Str)) (n : Nat) (x : Str), x ∈ l →
      (dictFind ((l.foldl mergeStep (m, n)).1) x).isSome = true := by
  induction l with
  | nil => intro m n x hx; simp at hx
  | cons pn l ih =>
      intro m n x hx
      simp only [List.foldl_cons]
      rcases List.mem_cons.mp hx with rfl | hx'
      · cases hp : dictFind m x with
        | some w =>
            rw [show mergeStep (m, n) x = (m, n) by simp [mergeStep, hp]]
            by_cases hmem : x ∈ l
            · exact ih m n x hmem
            · have := mergeFold_preserves l m n x w hp
              simp [this]
        | none =>
            rw [show mergeStep (m, n) x = (m ++ [(x, [])], n + 1) by simp [mergeStep, hp]]
            have hsingle : dictFind (m ++ [(x, [])]) x = some [] := by
              unfold dictFind at hp ⊢
              rw [List.find?_append]
              have : m.find? (fun p => p.1 = x) = none := by
                cases hm : m.find? (fun p => p.1 = x) with
                | none => rfl
                | some q => rw [hm] at hp; simp at hp
              rw [this]
              simp [List.find?]
            have := mergeFold_preserves l _ (n + 1) x [] hsingle
            simp [this]
      · exact ih _ _ x hx'

/-- If every name is already present, the merge loop is the identity and
counts zero additions. -/
theorem mergeFold_id (l : List Str) :
    ∀ (m : List (Str × Str)) (n : Nat),
      (∀ x ∈ l, (dictFind m x).isSome = true) → l.foldl mergeStep (m, n) = (m, n) := by
  induction l with
  | nil => intro m n _; rfl
  | cons pn l ih =>
      intro m n h
      simp only [List.foldl_cons]
      have hp : (dictFind m pn).isSome = true := h pn (by simp)
      rw [show mergeStep (m, n) pn = (m, n) by simp [mergeStep, hp]]
      exact ih m n fun x hx => h x (by simp [hx])

/-- The merge loop grows the mapping by exactly its addition count. -/
theorem mergeFold_length (l : List Str) :
    ∀ (m : List (Str × Str)) (n : Nat),
      (l.foldl mergeStep (m, n)).1.length + n = m.length + (l.foldl mergeStep (m, n)).2 := by
  induction l with
  | nil => intro m n; rfl
  | cons pn l ih =>
      intro m n
      simp only [List.foldl_cons]
      cases hp : dictFind m pn with
      | some w =>
          rw [show mergeStep (m, n) pn = (m, n) by simp [mergeStep, hp]]
          exact ih m n
      | none =>
          rw [show mergeStep (m, n) pn = (m ++ [(pn, [])], n + 1) by simp [mergeStep, hp]]
          have := ih (m ++ [(pn, [])]) (n + 1)
          rw [List.length_append] at this
          simp only [List.length_singleton] at this
          omega

/-- C2, amended: the merge operation returns the updated mapping itself; the
count of newly added entries is internal and equals the growth of the
mapping. -/
theorem C2_merge_returns_mapping (pm : List (Str × Str)) (data : List RawRow) :
    (create_product_mapping pm data).length = pm.length + new_products_added pm data := by
  have := mergeFold_length (uniqueProducts data) pm 0
  simpa [create_product_mapping, new_products_added, mergeLoop] using this

/-- C5: merging scraped rows into the mapping preserves every existing entry
unchanged (so a non-empty translation is kept), every entry of the result
either existed before or is a newly inserted absent name with the empty
translation, and every extracted unique name is present afterwards. -/
theorem C5_merge_preserves (pm : List (Str × Str)) (data : List RawRow) :
    (∀ k v, dictFind pm k = some v →
      dictFind (create_product_mapping pm data) k = some v)
    ∧ (∀ k v, dictFind (create_product_mapping pm data) k = some v →
      dictFind pm k = some v ∨ (dictFind pm k = none ∧ v = []))
    ∧ (∀ x ∈ uniqueProducts data,
      (dictFind (create_product_mapping pm data) x).isSome = true) := by
  refine ⟨fun k v h => mergeFold_preserves _ _ _ _ _ h, fun k v h => ?_,
    fun x hx => mergeFold_mem _ _ _ _ hx⟩
  cases hk : dictFind pm k with
  | some w =>
      have hw := mergeFold_preserves (uniqueProducts data) pm 0 k w hk
      have hv : v = w := by
        have := h.symm.trans hw
        simpa using this
      exact .inl (by rw [hv])
  | none =>
      rcases mergeFold_new (uniqueProducts data) pm 0 k v h with h' | h'
      · rw [hk] at h'; simp at h'
      · exact .inr ⟨rfl, h'⟩

/-- Witness for `C5_merge_preserves`: an existing non-empty translation
survives a merge, the newly inserted scraped name carries the empty
translation, and the scraped name is present after the merge. -/
theorem C5_witness :
    dictFind (create_product_mapping [(str "आलु", str "Potato")] [rowEx]) (str "आलु")
      = some (str "Potato")
    ∧ (dictFind [(str "आलु", str "Potato")] (str "आलु रातो") = some []
        ∨ (dictFind [(str "आलु", str "Potato")] (str "आलु रातो") = none ∧ ([] : Str) = []))
    ∧ (dictFind (create_product_mapping [(str "आलु", str "Potato")] [rowEx])
        (str "आलु रातो")).isSome = true :=
  ⟨(C5_merge_preserves [(str "आलु", str "Potato")] [rowEx]).1 _ _ (by decide),
   (C5_merge_preserves [(str "आलु", str "Potato")] [rowEx]).2.1 (str "आलु रातो") [] (by decide),
   (C5_merge_preserves [(str "आलु", str "Potato")] [rowEx]).2.2 (str "आलु रातो") (by decide)⟩

/-- C8: merging the same scraped rows a second time adds zero new entries and
leaves the mapping unchanged. -/
theorem C8_merge_idempotent (pm : List (Str × Str)) (data : List RawRow) :
    create_product_mapping (create_product_mapping pm data) data
      = create_product_mapping pm data
    ∧ new_products_added (create_product_mapping pm data) data = 0 := by
  have hmem : ∀ x ∈ uniqueProducts data,
      (dictFind (create_product_mapping pm data) x).isSome = true :=
    fun x hx => mergeFold_mem (uniqueProducts data) pm 0 x hx
  have hid := mergeFold_id (uniqueProducts data) (create_product_mapping pm data) 0 hmem
  constructor
  · show (mergeLoop (create_product_mapping pm data) data).1 = create_product_mapping pm data
    unfold mergeLoop
    rw [hid]
  · show (mergeLoop (create_product_mapping pm data) data).2 = 0
    unfold mergeLoop
    rw [hid]

/-- The key sequence of the three name-field assignments is the base one. -/
theorem nameRecord_keys (pnu : Str × Str × Str) :
    (nameRecord pnu).map Prod.fst = recordKeys := by
  have k1 : (dictSet baseRecord (str "nepali_name") (Val.s pnu.1)).map Prod.fst
      = recordKeys := by
    rw [dictSet_keys baseRecord (str "nepali_name") (Val.s pnu.1) (by decide)]
    decide
  have k2 : (dictSet (dictSet baseRecord (str "nepali_name") (Val.s pnu.1))
      (str "unit_type") (Val.s pnu.2.2)).map Prod.fst = recordKeys := by
    rw [dictSet_keys (dictSet baseRecord (str "nepali_name") (Val.s pnu.1))
      (str "unit_type") (Val.s pnu.2.2) (by rw [k1]; decide)]
    exact k1
  have k3 : (dictSet (dictSet (dictSet baseRecord (str "nepali_name") (Val.s pnu.1))
      (str "unit_type") (Val.s pnu.2.2)) (str "unit_nepali") (Val.s pnu.2.1)).map Prod.fst
      = recordKeys := by
    rw [dictSet_keys (dictSet (dictSet baseRecord (str "nepali_name") (Val.s pnu.1))
      (str "unit_type") (Val.s pnu.2.2)) (str "unit_nepali") (Val.s pnu.2.1)
      (by rw [k2]; decide)]
    exact k2
  exact k3

/-- `nameFields` always yields a record with exactly the eight base keys. -/
theorem nameFields_keys (pm : List (Str × Str)) (item : RawRow) :
    (nameFields pm item).map Prod.fst = recordKeys := by
  cases hit : dictFind item itemKey with
  | none => simp only [nameFields, hit]; decide
  | some item_text =>
      by_cases hpm : pm ≠ []
      · cases he : dictFind pm (extract_product_info item_text).1 with
        | none =>
            simp only [nameFields, hit, he, if_pos hpm]
            exact nameRecord_keys _
        | some eng =>
            by_cases heng : eng ≠ []
            · simp only [nameFields, hit, he, if_pos hpm, if_pos heng]
              rw [dictSet_keys (nameRecord (extract_product_info item_text))
                (str "english_name") (Val.s eng) (by rw [nameRecord_keys]; decide)]
              exact nameRecord_keys _
            · simp only [nameFields, hit, he, if_pos hpm, if_neg heng]
              exact nameRecord_keys _
      · simp only [nameFields, hit, if_neg hpm]
        exact nameRecord_keys _

/-- One price-loop step keeps the key sequence, provided its target key is
already present (the item entry is skipped by its guard). -/
theorem priceStep_keys (item : RawRow) (r : Record) (ks : Str × Str)
    (h : ks.1 ≠ itemKey → ks.2 ∈ r.map Prod.fst) :
    (priceStep item r ks).map Prod.fst = r.map Prod.fst := by
  by_cases hk : ks.1 ≠ itemKey
  · cases hp : dictFind item ks.1 with
    | none => simp only [priceStep, hp, if_pos hk]
    | some price_text =>
        cases hn : findFirstNumber (price_text.filter fun c => c ≠ ',') with
        | none => simp only [priceStep, hp, hn, if_pos hk]
        | some q =>
            simp only [priceStep, hp, hn, if_pos hk]
            exact dictSet_keys r ks.2 (Val.num q) (h hk)
  · simp only [priceStep, if_neg hk]

/-- The whole price loop keeps the key sequence. -/
theorem priceFold_keys (item : RawRow) :
    ∀ (l : List (Str × Str)) (r : Record),
      (∀ ks ∈ l, ks.1 ≠ itemKey → ks.2 ∈ r.map Prod.fst) →
      (l.foldl (priceStep item) r).map Prod.fst = r.map Prod.fst := by
  intro l
  induction l with
  | nil => intro r _; rfl
  | cons ks l ih =>
      intro r h
      have hstep : (priceStep item r ks).map Prod.fst = r.map Prod.fst :=
        priceStep_keys item r ks (h ks (by simp))
      have hrec := ih (priceStep item r ks)
        (fun ks' h' hne => by rw [hstep]; exact h ks' (by simp [h']) hne)
      simp only [List.foldl_cons]
      rw [hrec, hstep]

/-- C10: every record produced by the transformer has exactly the eight
fields `nepali_name`, `english_name`, `minimum`, `maximum`, `average`,
`unit_type`, `unit_nepali`, `currency`, in this order — no other column of
the raw row (including synthetic `column_<i>` keys) contributes a field. -/
theorem C10_record_fields (pm : List (Str × Str)) (item : RawRow) :
    (transform_row pm item).map Prod.fst =
      [ str "nepali_name", str "english_name", str "minimum", str "maximum"
      , str "average", str "unit_type", str "unit_nepali", str "currency" ] := by
  have hside : ∀ ks ∈ header_mapping,
      ks.1 ≠ itemKey → ks.2 ∈ (nameFields pm item).map Prod.fst := by
    intro ks hks hne
    rw [nameFields_keys]
    simp only [header_mapping, List.mem_cons, List.not_mem_nil, or_false] at hks
    rcases hks with h | h | h | h <;> subst h
    · exact absurd rfl hne
    · decide
    · decide
    · decide
  unfold transform_row
  rw [priceFold_keys item header_mapping (nameFields pm item) hside]
  exact nameFields_keys pm item

/-- `checkInterior` succeeds exactly on a nonempty `)`-free group followed by
the string-final closing paren. -/
theorem checkInterior_some {l interior : Str} :
    checkInterior l = some interior ↔
      (l = interior ++ [')'] ∧ interior ≠ [] ∧ ')' ∉ interior) := by
  constructor
  · intro h
    unfold checkInterior at h
    by_cases hc : 2 ≤ l.length ∧ l.getLast? = some ')'
        ∧ l.dropLast.all (fun c => c ≠ ')') = true
    · rw [if_pos hc] at h
      obtain ⟨hlen, hlast, hall⟩ := hc
      injection h with h
      subst h
      refine ⟨?_, ?_, ?_⟩
      · have hne : l ≠ [] := by
          intro h0
          rw [h0] at hlast
          simp at hlast
        have hg := List.getLast?_eq_getLast l hne
        rw [hg] at hlast
        injection hlast with hlast
        calc l = l.dropLast ++ [l.getLast hne] := (List.dropLast_concat_getLast hne).symm
        _ = l.dropLast ++ [')'] := by rw [hlast]
      · have hd := List.length_dropLast l
        apply List.ne_nil_of_length_pos
        omega
      · intro hmem
        have := List.all_eq_true.mp hall _ hmem
        simp at this
    · rw [if_neg hc] at h
      exact absurd h (by simp)
  · rintro ⟨he, hne, hmem⟩
    subst he
    unfold checkInterior
    have hc : 2 ≤ (interior ++ [')']).length ∧ (interior ++ [')']).getLast? = some ')'
        ∧ (interior ++ [')']).dropLast.all (fun c => c ≠ ')') = true := by
      refine ⟨?_, List.getLast?_concat _, ?_⟩
      · have : 0 < interior.length := List.length_pos.mpr hne
        simp only [List.length_append, List.length_cons, List.length_nil]
        omega
      · rw [List.dropLast_concat]
        refine List.all_eq_true.mpr fun c hcm => ?_
        simp only [ne_eq, decide_eq_true_eq]
        exact fun h' => hmem (h' ▸ hcm)
    rw [if_pos hc, List.dropLast_concat]

/-- Extending a minimal valid split of `rest` by one leading character gives
a minimal valid split of `c :: rest`, provided the pattern does not already
match at position 0 (either `c` is not `(` or the tail check fails). -/
theorem consSplit_step {c : Char} {rest pre interior : Str}
    (hblock : c ≠ '(' ∨ checkInterior rest = none)
    (hsound : ValidSplit rest pre interior)
    (hmin : ∀ pre' int', ValidSplit rest pre' int' → pre.length ≤ pre'.length) :
    ValidSplit (c :: rest) (c :: pre) interior ∧
      ∀ pre' int', ValidSplit (c :: rest) pre' int' → (c :: pre).length ≤ pre'.length := by
  obtain ⟨he, hne, hmem⟩ := hsound
  constructor
  · exact ⟨by rw [he]; rfl, hne, hmem⟩
  · intro pre' int' hv'
    obtain ⟨he', hne', hmem'⟩ := hv'
    cases pre' with
    | nil =>
        simp only [List.nil_append] at he'
        injection he' with h1 h2
        have hsome : checkInterior rest = some int' := checkInterior_some.mpr ⟨h2, hne', hmem'⟩
        rcases hblock with hb | hb
        · exact absurd h1 hb
        · rw [hb] at hsome
          exact absurd hsome (by simp)
    | cons c' pre'' =>
        injection he' with h1 h2
        have := hmin pre'' int' ⟨h2, hne', hmem'⟩
        simp only [List.length_cons]
        omega

/-- `findParenSplit` is sound: a returned split is valid and its prefix is
shortest (the regex search is leftmost). -/
theorem findParenSplit_sound : ∀ (t pre interior : Str),
    findParenSplit t = some (pre, interior) →
    ValidSplit t pre interior ∧
      ∀ pre' int', ValidSplit t pre' int' → pre.length ≤ pre'.length := by
  intro t
  induction t with
  | nil => intro pre interior h; simp [findParenSplit] at h
  | cons c rest ih =>
      intro pre interior h
      simp only [findParenSplit] at h
      by_cases hc : c = '('
      · rw [if_pos hc] at h
        cases hci : checkInterior rest with
        | some int0 =>
            rw [hci] at h
            injection h with h
            obtain ⟨h1, h2⟩ := (Prod.mk.injEq _ _ _ _).mp h
            subst h1
            subst h2
            obtain ⟨hr, hne, hmem⟩ := checkInterior_some.mp hci
            refine ⟨⟨?_, hne, hmem⟩, ?_⟩
            · rw [hc, hr]
              rfl
            · intro pre' int' _
              simp
        | none =>
            rw [hci] at h
            cases hr : findParenSplit rest with
            | none => rw [hr] at h; simp at h
            | some pi =>
                rw [hr] at h
                simp only [Option.map_some'] at h
                injection h with h
                obtain ⟨hs, hm⟩ := ih pi.1 pi.2 (by rw [hr])
                have hstep := @consSplit_step c rest pi.1 pi.2 (Or.inr hci) hs hm
                obtain ⟨h1, h2⟩ := (Prod.mk.injEq _ _ _ _).mp h
                subst h1
                subst h2
                exact hstep
      · rw [if_neg hc] at h
        cases hr : findParenSplit rest with
        | none => rw [hr] at h; simp at h
        | some pi =>
            rw [hr] at h
            simp only [Option.map_some'] at h
            injection h with h
            obtain ⟨hs, hm⟩ := ih pi.1 pi.2 (by rw [hr])
            have hstep := @consSplit_step c rest pi.1 pi.2 (Or.inl hc) hs hm
            obtain ⟨h1, h2⟩ := (Prod.mk.injEq _ _ _ _).mp h
            subst h1
            subst h2
            exact hstep

/-- `findParenSplit` is complete: when it fails, no valid split exists. -/
theorem findParenSplit_complete : ∀ (t : Str), findParenSplit t = none →
    ∀ pre interior, ¬ ValidSplit t pre interior := by
  intro t
  induction t with
  | nil =>
      intro _ pre interior hv
      obtain ⟨he, _, _⟩ := hv
      have := congrArg List.length he
      simp only [List.length_nil, List.length_append, List.length_cons] at this
      omega
  | cons c rest ih =>
      intro h pre interior hv
      obtain ⟨he, hne, hmem⟩ := hv
      simp only [findParenSplit] at h
      by_cases hc : c = '('
      · rw [if_pos hc] at h
        cases hci : checkInterior rest with
        | some int0 => rw [hci] at h; simp at h
        | none =>
            rw [hci] at h
            have hrest : findParenSplit rest = none := by
              cases hr : findParenSplit rest with
              | none => rfl
              | some pi => rw [hr] at h; simp at h
            cases pre with
            | nil =>
                simp only [List.nil_append] at he
                injection he with h1 h2
                have hsome : checkInterior rest = some interior :=
                  checkInterior_some.mpr ⟨h2, hne, hmem⟩
                rw [hci] at hsome
                exact absurd hsome (by simp)
            | cons c' pre' =>
                injection he with h1 h2
                exact ih hrest pre' interior ⟨h2, hne, hmem⟩
      · rw [if_neg hc] at h
        have hrest : findParenSplit rest = none := by
          cases hr : findParenSplit rest with
          | none => rfl
          | some pi => rw [hr] at h; simp at h
        cases pre with
        | nil =>
            simp only [List.nil_append] at he
            injection he with h1 h2
            exact absurd h1 hc
        | cons c' pre' =>
            injection he with h1 h2
            exact ih hrest pre' interior ⟨h2, hne, hmem⟩

/-- C7: the parser first trims the input; if the trimmed text admits no
decomposition ending in a parenthesized `)`-free nonempty group, the whole
trimmed text is the product name with empty Nepali unit and English unit
`"kg"`; if it does (the minimal-prefix decomposition being the regex match),
the product name is the trimmed prefix and the Nepali unit phrase the
trimmed group interior, translated by the unit lookup. -/
theorem C7_item_text_split (s : Str) :
    ((∀ pre interior, ¬ ValidSplit (pyStrip s) pre interior) →
      extract_product_info s = (pyStrip s, [], str "kg"))
    ∧ (∀ pre interior, ValidSplit (pyStrip s) pre interior →
      (∀ pre' int', ValidSplit (pyStrip s) pre' int' → pre.length ≤ pre'.length) →
      extract_product_info s = (pyStrip pre, pyStrip interior, unitLookup (pyStrip interior))) := by
  constructor
  · intro hnone
    cases hf : findParenSplit (pyStrip s) with
    | none => simp [extract_product_info, hf]
    | some pi =>
        have := (findParenSplit_sound _ pi.1 pi.2 (by rw [hf])).1
        exact absurd this (hnone _ _)
  · intro pre interior hv hmin
    cases hf : findParenSplit (pyStrip s) with
    | none => exact absurd hv (findParenSplit_complete _ hf _ _)
    | some pi =>
        obtain ⟨hsound, hmin'⟩ := findParenSplit_sound _ pi.1 pi.2 (by rw [hf])
        have hlen : pi.1.length = pre.length :=
          le_antisymm (hmin' pre interior hv) (hmin pi.1 pi.2 hsound)
        obtain ⟨he1, _, _⟩ := hsound
        obtain ⟨he2, _, _⟩ := hv
        rw [he1] at he2
        obtain ⟨hpe, hce⟩ := List.append_inj he2 hlen
        injection hce with _ hce2
        have hie : pi.2 = interior := (List.append_inj' hce2 rfl).1
        simp only [extract_product_info, hf]
        rw [hpe, hie]

/-- Witness for `C7_item_text_split` at the spec's round-trip example
`"आलु (के.जी.)"`. -/
theorem C7_witness :
    extract_product_info (str "आलु (के.जी.)") = (str "आलु", str "के.जी.", str "kg") := by
  have hf : findParenSplit (pyStrip (str "आलु (के.जी.)"))
      = some (str "आलु ", str "के.जी.") := by decide
  obtain ⟨hsound, hmin⟩ := findParenSplit_sound _ _ _ hf
  have := (C7_item_text_split (str "आलु (के.जी.)")).2 (str "आलु ") (str "के.जी.") hsound hmin
  rw [this]
  decide
